import Mathlib

/-!
Verification of the event-loop test-harness patterns in the repository
`brocef/brocef` (samples `2021-03-21-unit-testing-in-pyside2` and
`2021-04-24-unit-testing-in-pyside2-pt2`).

The repository's own code consists of `unittest` test classes that drive a
Qt `QCoreApplication` event loop (`exec_`, `QTimer.singleShot`, `exit`,
`quit`, queued signal connections).  The loop primitive itself is supplied
by the external GUI framework and is out of scope of the repository; the
spec documents the contract the samples rely on (single-threaded
cooperative loop, single-shot timers ordered by delay then registration,
`exit` is a no-op when the loop is not running, loop-owned timers survive
across `exec_` calls unless destroyed).  We embed that contract as a
virtual-time event loop over a deep embedding of the callbacks the samples
register, and then embed each test scenario of the repository on top of it.
-/

namespace Qt2Test

/-- Deep embedding of the callbacks the sample tests register on the loop.
`stop c` is `QCoreApplication.exit(c)` (`quit` is `stop 0`); `schedule o d a`
is a single-shot timer started now with interval `d`, parented to the
optional owner object `o` (`QTimer.singleShot` has no owner; the less-leaky
`_single_shot` parents to the per-test `QObject`); `seq` runs two effects in
order inside one callback body; `record v` is a delivery of a worker result
to the subscribed handler (the mocked `on_worker_result`); `assertTrue b` is
a `unittest` assertion executed inside the callback; `mark` is the worker
thread entering its `run` method (`isRunning()` becomes true); `nop` does
nothing. -/
inductive Action where
  | stop (code : Int)
  | schedule (owner : Option Nat) (delay : Nat) (a : Action)
  | seq (a b : Action)
  | record (v : Nat)
  | assertTrue (b : Bool)
  | mark
  | nop
deriving Repr, DecidableEq

/-- A pending single-shot timer: absolute virtual fire time, registration
sequence number (ties on fire time are dispatched in registration order),
owning `QObject` (if any) and the callback. -/
structure Timer where
  fireAt : Nat
  seqNo : Nat
  owner : Option Nat
  action : Action
deriving Repr, DecidableEq

/-- Modelled from the spec: the state of the process-wide `QCoreApplication`
together with its event loop, in virtual time.  `clock` is the current
virtual time in ms; `nextSeq` numbers timer registrations; `pending` holds
the live single-shot timers (they persist across `exec_` calls unless their
owner is destroyed); `running` is true while `exec_` is dispatching;
`exitCode` is the code requested by `exit` while the loop runs; `observed`
collects worker-result deliveries seen by the subscribed handler;
`failures` counts assertion failures surfaced out of callbacks (the spec
requires the harness never to swallow them); `workerStarted` is the worker
thread's `isRunning()`; `firedLog` records `(owner, seqNo)` of every
dispatched timer; `appId` identifies the created application instance. -/
structure AppState where
  clock : Nat
  nextSeq : Nat
  pending : List Timer
  running : Bool
  exitCode : Option Int
  observed : List Nat
  failures : Nat
  workerStarted : Bool
  firedLog : List (Option Nat × Nat)
  appId : Nat
deriving Repr, DecidableEq

/-- A freshly constructed `QCoreApplication()` with no history. -/
def app0 : AppState :=
  { clock := 0, nextSeq := 0, pending := [], running := false,
    exitCode := none, observed := [], failures := 0,
    workerStarted := false, firedLog := [], appId := 0 }

/-- Modelled from the spec: `QCoreApplication.instance() or
QCoreApplication()` — the loop handle is created lazily on first use and
reused whenever an instance already exists (never re-created mid-suite). -/
def instance_or_create : Option AppState → AppState
  | some a => a
  | none => app0

/-- Start a single-shot timer: fires at `clock + delay`, ties broken by
registration order (`QTimer.singleShot(delay, f)` / `_single_shot`). -/
def singleShot (owner : Option Nat) (delay : Nat) (a : Action)
    (s : AppState) : AppState :=
  { s with pending := s.pending ++ [⟨s.clock + delay, s.nextSeq, owner, a⟩],
           nextSeq := s.nextSeq + 1 }

/-- Modelled from the spec: `QCoreApplication.exit(code)` requests loop
termination with the given code; if the event loop is not running it is a
no-op. -/
def appExit (code : Int) (s : AppState) : AppState :=
  if s.running then { s with exitCode := some code } else s

/-- Run one callback body to completion on the loop thread. -/
def runAction : Action → AppState → AppState
  | .stop c, s => appExit c s
  | .schedule o d a, s => singleShot o d a s
  | .seq a b, s => runAction b (runAction a s)
  | .record v, s => { s with observed := s.observed ++ [v] }
  | .assertTrue b, s => if b then s else { s with failures := s.failures + 1 }
  | .mark, s => { s with workerStarted := true }
  | .nop, s => s

/-- Dispatch order: earlier fire time first; same fire time keeps
registration order. -/
def timerLE (t u : Timer) : Bool :=
  t.fireAt < u.fireAt || (t.fireAt == u.fireAt && t.seqNo ≤ u.seqNo)

/-- The timer the loop dispatches next, if any. -/
def pickEarliest : List Timer → Option Timer
  | [] => none
  | t :: ts =>
    some (match pickEarliest ts with
          | none => t
          | some u => if timerLE t u then t else u)

/-- Remove one occurrence of a (fired, single-shot) timer. -/
def removeTimer (t : Timer) : List Timer → List Timer
  | [] => []
  | u :: us => if u = t then us else u :: removeTimer t us

/-- Fire a timer: advance the virtual clock to its fire time, consume it
(single-shot), log it, and run its callback. -/
def dispatch (t : Timer) (s : AppState) : AppState :=
  runAction t.action
    { s with clock := max s.clock t.fireAt,
             pending := removeTimer t s.pending,
             firedLog := s.firedLog ++ [(t.owner, t.seqNo)] }

/-- Fuel-indexed loop body of `exec_`: return as soon as an exit code was
requested, block forever (`none`) if no timer is pending, otherwise
dispatch the earliest timer and continue. -/
def execFuel : Nat → AppState → Option Int × AppState
  | 0, s => (none, s)
  | n + 1, s =>
    match s.exitCode with
    | some c => (some c, { s with running := false, exitCode := none })
    | none =>
      match pickEarliest s.pending with
      | none => (none, s)
      | some t => execFuel n (dispatch t s)

/-- Weight of a callback: an upper bound (plus one) on the timer weight its
execution can add to the queue, used as the loop's termination measure. -/
def Action.size : Action → Nat
  | .stop _ => 1
  | .schedule _ _ a => 2 + a.size
  | .seq a b => 1 + a.size + b.size
  | .record _ => 1
  | .assertTrue _ => 1
  | .mark => 1
  | .nop => 1

/-- Total weight of a timer queue. -/
def sumW (l : List Timer) : Nat :=
  l.foldr (fun t acc => 1 + t.action.size + acc) 0

/-- Termination measure of the loop: every dispatch strictly decreases it. -/
def loopMeasure (s : AppState) : Nat := sumW s.pending

/-- Modelled from the spec: `QCoreApplication.exec_()` — enter the event
loop and dispatch pending timers in time order until `exit`/`quit` stops
it, returning the requested exit code; with nothing pending and no stop
requested the real loop would block forever, which the model reports as
`none`.  `loopMeasure + 1` fuel always suffices because each dispatch
strictly decreases the queue weight. -/
def exec_ (s : AppState) : Option Int × AppState :=
  execFuel (loopMeasure s + 1) { s with running := true, exitCode := none }

/-- `release_qt_resources` of the less-leaky harness: `deleteLater` on the
per-test owner object followed by flushing deferred-deletion events
destroys every timer parented to that owner. -/
def release_qt_resources (o : Nat) (s : AppState) : AppState :=
  { s with pending := s.pending.filter (fun t => t.owner ≠ some o) }

/-- `LeakyTests._fail_if_timeout`: `QTimer.singleShot(5000, lambda:
self.qapp.exit(-1))` — an ownerless timeout guard. -/
def leaky_fail_if_timeout (s : AppState) : AppState :=
  singleShot none 5000 (.stop (-1)) s

/-- `LeakyTests.test_fail_if_timeout`: install only the timeout guard (a
simulated hang: no success path) and run the loop. -/
def leaky_test_fail_if_timeout : Option Int × AppState :=
  exec_ (leaky_fail_if_timeout (instance_or_create none))

/-- `do_task` of `LeakyTests.test_one`/`test_two`: assert the app exists
(which succeeds), then pretend the test needs 3 s of non-blocking work by
scheduling `self.qapp.quit` (= `exit 0`) in 3000 ms. -/
def leaky_do_task : Action :=
  .seq (.assertTrue true) (.schedule none 3000 (.stop 0))

/-- `LeakyTests.test_one`: `QTimer.singleShot(0, do_task)`, then
`_fail_if_timeout()`, then `qapp.exec_()`. -/
def leaky_test_one (s : AppState) : Option Int × AppState :=
  exec_ (leaky_fail_if_timeout (singleShot none 0 leaky_do_task s))

/-- `LeakyTests.test_two`: identical shape to `test_one`. -/
def leaky_test_two (s : AppState) : Option Int × AppState :=
  exec_ (leaky_fail_if_timeout (singleShot none 0 leaky_do_task s))

/-- `LessLeakyTests._fail_if_timeout`: the guard is started through
`_single_shot`, hence parented to the per-test owner object `o`. -/
def less_leaky_fail_if_timeout (o : Nat) (s : AppState) : AppState :=
  singleShot (some o) 5000 (.stop (-1)) s

/-- `do_task` of `LessLeakyTests.test_one`/`test_two`: schedule
`self.qapp.quit` in 3000 ms through `_single_shot` (owner-parented). -/
def less_leaky_do_task (o : Nat) : Action :=
  .schedule (some o) 3000 (.stop 0)

/-- `LessLeakyTests.test_one`: `_single_shot(0, do_task)`, then
`_fail_if_timeout()`, then `qapp.exec_()`; every timer is parented to the
per-test owner `o` (the test's `test_qobj`). -/
def less_leaky_test_one (o : Nat) (s : AppState) : Option Int × AppState :=
  exec_ (less_leaky_fail_if_timeout o (singleShot (some o) 0 (less_leaky_do_task o) s))

/-- `LessLeakyTests.test_two`: identical shape to `test_one`. -/
def less_leaky_test_two (o : Nat) (s : AppState) : Option Int × AppState :=
  exec_ (less_leaky_fail_if_timeout o (singleShot (some o) 0 (less_leaky_do_task o) s))

/-- The emission part of `Worker.run`: `n` iterations of `msleep(100)`
followed by `resultReady.emit(...)`, delivered onto the loop through the
queued connection to the (mocked) `on_worker_result` handler; the `i`-th
delivery lands at 100·i ms after the worker started (the emitted random
payload is irrelevant to the tests, which only count calls; we emit `i`). -/
def worker_emits : Nat → Action
  | 0 => .nop
  | n + 1 => .seq (worker_emits n) (.schedule none (100 * (n + 1)) (.record (n + 1)))

/-- `Worker.run` as observed from the loop thread: the thread starts
(`isRunning()` becomes true), its `n` results are delivered at
100·1 … 100·n ms, and `finished` — wired by each test to some callback
`onFinished` — is delivered right after the last result, at 100·n ms. -/
def worker_run (n : Nat) (onFinished : Action) : Action :=
  .seq .mark (.seq (worker_emits n) (.schedule none (100 * n) onFinished))

/-- `Controller.start()`: emit `startWorkers`, which is connected to
`worker.start` with `Qt.QueuedConnection` — so nothing runs synchronously;
a delay-0 event is posted and the worker only starts once the loop
dispatches it. -/
def controller_start (onFinished : Action) (s : AppState) : AppState :=
  singleShot none 0 (worker_run 20 onFinished) s

/-- `test_controller_and_worker_good`: fresh app, `worker.finished`
connected to `QCoreApplication.quit`, `controller.start()`, `app.exec_()`. -/
def test_controller_and_worker_good : Option Int × AppState :=
  exec_ (controller_start (.stop 0) (instance_or_create none))

/-- `test_controller_and_worker_better`: a 3000 ms single-shot timeout
timer parented to the controller (owner `0`) firing
`QCoreApplication.exit(-1)` is started before `controller.start()`;
`worker.finished` is connected to `quit`; then `app.exec_()`. -/
def test_controller_and_worker_better (s : AppState) : Option Int × AppState :=
  exec_ (controller_start (.stop 0) (singleShot (some 0) 3000 (.stop (-1)) s))

/-- `test_controller_and_worker_bad`: `controller.start()` with no event
loop ever run (`exec_` is never called); the test then immediately checks
`controller.worker.isRunning()`. -/
def test_controller_and_worker_bad : AppState :=
  controller_start .nop (instance_or_create none)

/-- A generic success-vs-guard scenario: a success callback scheduled first
with delay `ds` that requests loop stop with code 0, and a timeout guard
scheduled second with delay `dg` that requests stop with code -1, run under
`exec_` (the shape shared by `test_one`/`test_two` of both harnesses). -/
def run_success_vs_guard (ds dg : Nat) (s : AppState) : Option Int × AppState :=
  exec_ (singleShot none dg (.stop (-1)) (singleShot none ds (.stop 0) s))

/-- A `do_task` whose in-loop assertion fails before it schedules the
success quit (the shape of `LeakyTests.test_one.do_task` with a failing
`unittest` assertion). -/
def failing_do_task : Action :=
  .seq (.assertTrue false) (.schedule none 3000 (.stop 0))

/-- Run of a test whose deferred callback raises an assertion failure
inside the loop's dispatch. -/
def failing_assert_run : Option Int × AppState :=
  exec_ (leaky_fail_if_timeout (singleShot none 0 failing_do_task (instance_or_create none)))

/-- `true` iff the callback never parents a newly scheduled timer to owner
`o` (all timers a test schedules through `_single_shot` are parented to its
own `test_qobj`, so callbacks of other tests satisfy this for `o`). -/
def Action.ownerFree (o : Nat) : Action → Bool
  | .schedule q _ a => (q != some o) && a.ownerFree o
  | .seq a b => a.ownerFree o && b.ownerFree o
  | _ => true

/-- No pending timer is owned by `o` and no pending callback can schedule
one owned by `o`. -/
def ownerClean (o : Nat) (s : AppState) : Prop :=
  ∀ t ∈ s.pending, t.owner ≠ some o ∧ t.action.ownerFree o = true

/-- The leaky suite, first test: `test_one` on the freshly created app. -/
def leaky_suite_first : Option Int × AppState :=
  leaky_test_one (instance_or_create none)

/-- The leaky suite, second test: `test_two` reusing the same app instance
(`QCoreApplication.instance()`), with no cleanup in between. -/
def leaky_suite_second : Option Int × AppState :=
  leaky_test_two (instance_or_create (some leaky_suite_first.2))

/-- The less-leaky suite, first test: `test_one` with per-test owner `1`. -/
def less_leaky_suite_first : Option Int × AppState :=
  less_leaky_test_one 1 (instance_or_create none)

/-- The less-leaky suite after the first test's `addCleanup` ran
`release_qt_resources` on owner `1`. -/
def less_leaky_after_cleanup : AppState :=
  release_qt_resources 1 less_leaky_suite_first.2

/-- The less-leaky suite, second test: `test_two` with its own fresh
per-test owner `2`, reusing the same app instance. -/
def less_leaky_suite_second : Option Int × AppState :=
  less_leaky_test_two 2 (instance_or_create (some less_leaky_after_cleanup))

/-! ### Basic lemmas about the loop model -/

theorem appExit_pending (c : Int) (s : AppState) : (appExit c s).pending = s.pending := by
  unfold appExit; split <;> rfl

theorem appExit_running (c : Int) (s : AppState) : (appExit c s).running = s.running := by
  unfold appExit; split <;> rfl

theorem appExit_clock (c : Int) (s : AppState) : (appExit c s).clock = s.clock := by
  unfold appExit; split <;> rfl

theorem appExit_appId (c : Int) (s : AppState) : (appExit c s).appId = s.appId := by
  unfold appExit; split <;> rfl

theorem appExit_failures (c : Int) (s : AppState) : (appExit c s).failures = s.failures := by
  unfold appExit; split <;> rfl

theorem runAction_running (a : Action) : ∀ s : AppState, (runAction a s).running = s.running := by
  induction a with
  | stop c => intro s; simp [runAction, appExit_running]
  | schedule o d a ih => intro s; rfl
  | seq a b iha ihb => intro s; simp [runAction, ihb, iha]
  | record v => intro s; rfl
  | assertTrue b => intro s; simp only [runAction]; split <;> rfl
  | mark => intro s; rfl
  | nop => intro s; rfl

theorem runAction_clock (a : Action) : ∀ s : AppState, (runAction a s).clock = s.clock := by
  induction a with
  | stop c => intro s; simp [runAction, appExit_clock]
  | schedule o d a ih => intro s; rfl
  | seq a b iha ihb => intro s; simp [runAction, ihb, iha]
  | record v => intro s; rfl
  | assertTrue b => intro s; simp only [runAction]; split <;> rfl
  | mark => intro s; rfl
  | nop => intro s; rfl

theorem runAction_appId (a : Action) : ∀ s : AppState, (runAction a s).appId = s.appId := by
  induction a with
  | stop c => intro s; simp [runAction, appExit_appId]
  | schedule o d a ih => intro s; rfl
  | seq a b iha ihb => intro s; simp [runAction, ihb, iha]
  | record v => intro s; rfl
  | assertTrue b => intro s; simp only [runAction]; split <;> rfl
  | mark => intro s; rfl
  | nop => intro s; rfl

theorem runAction_failures_le (a : Action) :
    ∀ s : AppState, s.failures ≤ (runAction a s).failures := by
  induction a with
  | stop c => intro s; simp [runAction, appExit_failures]
  | schedule o d a ih => intro s; exact Nat.le_refl _
  | seq a b iha ihb =>
    intro s
    exact Nat.le_trans (iha s) (ihb (runAction a s))
  | record v => intro s; exact Nat.le_refl _
  | assertTrue b =>
    intro s; simp only [runAction]; split
    · exact Nat.le_refl _
    · exact Nat.le_succ _
  | mark => intro s; exact Nat.le_refl _
  | nop => intro s; exact Nat.le_refl _

theorem runAction_pending_ext (a : Action) :
    ∀ s : AppState, ∃ ts, (runAction a s).pending = s.pending ++ ts := by
  induction a with
  | stop c => intro s; exact ⟨[], by rw [runAction, appExit_pending, List.append_nil]⟩
  | schedule o d a ih =>
    intro s; exact ⟨[⟨s.clock + d, s.nextSeq, o, a⟩], rfl⟩
  | seq a b iha ihb =>
    intro s
    obtain ⟨ts1, h1⟩ := iha s
    obtain ⟨ts2, h2⟩ := ihb (runAction a s)
    exact ⟨ts1 ++ ts2, by rw [runAction, h2, h1, List.append_assoc]⟩
  | record v => intro s; exact ⟨[], by simp [runAction]⟩
  | assertTrue b =>
    intro s; simp only [runAction]; split
    · exact ⟨[], by simp⟩
    · exact ⟨[], by simp⟩
  | mark => intro s; exact ⟨[], by simp [runAction]⟩
  | nop => intro s; exact ⟨[], by simp [runAction]⟩

theorem pickEarliest_eq_none {l : List Timer} (h : pickEarliest l = none) : l = [] := by
  cases l with
  | nil => rfl
  | cons t ts => simp [pickEarliest] at h

theorem pickEarliest_mem : ∀ {l : List Timer} {t : Timer}, pickEarliest l = some t → t ∈ l := by
  intro l
  induction l with
  | nil => intro t h; simp [pickEarliest] at h
  | cons u us ih =>
    intro t h
    simp only [pickEarliest, Option.some.injEq] at h
    cases hus : pickEarliest us with
    | none => rw [hus] at h; simp at h; rw [← h]; exact List.mem_cons_self u us
    | some w =>
      rw [hus] at h; simp at h
      by_cases hle : timerLE u w
      · rw [if_pos hle] at h; rw [← h]; exact List.mem_cons_self u us
      · rw [if_neg hle] at h; rw [← h]
        exact List.mem_cons_of_mem u (ih hus)

theorem timerLE_fireAt {t u : Timer} (h : timerLE t u = true) : t.fireAt ≤ u.fireAt := by
  simp [timerLE] at h
  rcases h with h | ⟨h, _⟩
  · exact Nat.le_of_lt h
  · exact Nat.le_of_eq h

theorem timerLE_fireAt_of_not {t u : Timer} (h : ¬ timerLE t u = true) :
    u.fireAt ≤ t.fireAt := by
  simp [timerLE] at h
  exact h.1

theorem pickEarliest_fireAt_le :
    ∀ {l : List Timer} {t : Timer}, pickEarliest l = some t →
      ∀ u ∈ l, t.fireAt ≤ u.fireAt := by
  intro l
  induction l with
  | nil => intro t h; simp [pickEarliest] at h
  | cons v vs ih =>
    intro t h u hu
    simp only [pickEarliest, Option.some.injEq] at h
    cases hvs : pickEarliest vs with
    | none =>
      rw [hvs] at h; simp at h
      have := pickEarliest_eq_none hvs
      subst this
      simp at hu
      rw [← h, hu]
    | some w =>
      rw [hvs] at h; simp at h
      rcases List.mem_cons.mp hu with hu | hu
      · by_cases hle : timerLE v w
        · rw [if_pos hle] at h; rw [← h, hu]
        · rw [if_neg hle] at h; rw [← h, hu]
          exact timerLE_fireAt_of_not hle
      · by_cases hle : timerLE v w
        · rw [if_pos hle] at h; rw [← h]
          exact Nat.le_trans (timerLE_fireAt hle) (ih hvs u hu)
        · rw [if_neg hle] at h; rw [← h]
          exact ih hvs u hu

theorem mem_removeTimer_of_ne :
    ∀ {l : List Timer} {x t : Timer}, x ∈ l → x ≠ t → x ∈ removeTimer t l := by
  intro l
  induction l with
  | nil => intro x t h; simp at h
  | cons u us ih =>
    intro x t hx hne
    simp only [removeTimer]
    by_cases hu : u = t
    · rw [if_pos hu]
      rcases List.mem_cons.mp hx with h | h
      · exact absurd (h.trans hu) hne
      · exact h
    · rw [if_neg hu]
      rcases List.mem_cons.mp hx with h | h
      · rw [h]; exact List.mem_cons_self u _
      · exact List.mem_cons_of_mem u (ih h hne)

theorem sumW_append (l1 l2 : List Timer) : sumW (l1 ++ l2) = sumW l1 + sumW l2 := by
  induction l1 with
  | nil => simp [sumW]
  | cons t ts ih => simp [sumW, List.foldr_cons] at ih ⊢; omega

theorem sumW_removeTimer :
    ∀ {l : List Timer} {t : Timer}, t ∈ l →
      sumW (removeTimer t l) + 1 + t.action.size = sumW l := by
  intro l
  induction l with
  | nil => intro t h; simp at h
  | cons u us ih =>
    intro t ht
    simp only [removeTimer]
    by_cases hu : u = t
    · rw [if_pos hu]
      subst hu
      simp [sumW, List.foldr_cons]
      omega
    · rw [if_neg hu]
      have hmem : t ∈ us := by
        rcases List.mem_cons.mp ht with h | h
        · exact absurd h.symm hu
        · exact h
      have := ih hmem
      simp [sumW, List.foldr_cons] at this ⊢
      omega

theorem runAction_sumW (a : Action) :
    ∀ s : AppState, sumW (runAction a s).pending + 1 ≤ sumW s.pending + a.size := by
  induction a with
  | stop c => intro s; rw [runAction, appExit_pending, Action.size]
  | schedule o d a ih =>
    intro s
    show sumW (s.pending ++ [⟨s.clock + d, s.nextSeq, o, a⟩]) + 1 ≤ _
    rw [sumW_append, Action.size]
    simp [sumW, List.foldr_cons]
    omega
  | seq a b iha ihb =>
    intro s
    have h1 := iha s
    have h2 := ihb (runAction a s)
    rw [runAction, Action.size]
    omega
  | record v => intro s; simp [runAction, Action.size, sumW]
  | assertTrue b =>
    intro s; simp only [runAction, Action.size]; split
    · omega
    · simp [sumW]
  | mark => intro s; simp [runAction, Action.size, sumW]
  | nop => intro s; simp [runAction, Action.size, sumW]

theorem dispatch_measure {t : Timer} {s : AppState} (h : t ∈ s.pending) :
    loopMeasure (dispatch t s) + 2 ≤ loopMeasure s := by
  unfold dispatch loopMeasure
  have h1 := runAction_sumW t.action
    { s with clock := max s.clock t.fireAt,
             pending := removeTimer t s.pending,
             firedLog := s.firedLog ++ [(t.owner, t.seqNo)] }
  have h2 := sumW_removeTimer h
  simp only at h1
  omega

theorem dispatch_running (t : Timer) (s : AppState) :
    (dispatch t s).running = s.running := by
  unfold dispatch; rw [runAction_running]

theorem dispatch_clock (t : Timer) (s : AppState) :
    (dispatch t s).clock = max s.clock t.fireAt := by
  unfold dispatch; rw [runAction_clock]

theorem dispatch_appId (t : Timer) (s : AppState) :
    (dispatch t s).appId = s.appId := by
  unfold dispatch; rw [runAction_appId]

theorem appExit_exitCode_running (c : Int) {s : AppState} (h : s.running = true) :
    (appExit c s).exitCode = some c := by
  unfold appExit; simp [h]

theorem execFuel_exit {s : AppState} {c : Int} (h : s.exitCode = some c)
    {n : Nat} (hn : 0 < n) :
    execFuel n s = (some c, { s with running := false, exitCode := none }) := by
  cases n with
  | zero => omega
  | succ m => rw [execFuel, h]

theorem execFuel_step {s : AppState} {t : Timer} (h : s.exitCode = none)
    (hp : pickEarliest s.pending = some t) (n : Nat) :
    execFuel (n + 1) s = execFuel n (dispatch t s) := by
  rw [execFuel, h, hp]

/-- With a timeout guard (`.stop (-1)` at absolute time `tg`) pending and
enough fuel, the loop necessarily returns, and no later than virtual time
`tg`: every dispatch strictly shrinks the queue weight, timers fire in
time order, and the guard itself stops the loop when it fires. -/
theorem execFuel_guard_terminates (tg q : Nat) (o : Option Nat) :
    ∀ n : Nat, ∀ s : AppState, loopMeasure s < n → s.running = true →
      (⟨tg, q, o, .stop (-1)⟩ : Timer) ∈ s.pending → s.clock ≤ tg →
      ∃ c s2, execFuel n s = (some c, s2) ∧ s2.clock ≤ tg := by
  intro n
  induction n with
  | zero => intro s hm; omega
  | succ m ih =>
    intro s hm hr hmem hclock
    cases hec : s.exitCode with
    | some c =>
      refine ⟨c, { s with running := false, exitCode := none }, ?_, ?_⟩
      · rw [execFuel, hec]
      · exact hclock
    | none =>
      obtain ⟨t, ht⟩ : ∃ t, pickEarliest s.pending = some t := by
        cases hl : pickEarliest s.pending with
        | none => rw [pickEarliest_eq_none hl] at hmem; simp at hmem
        | some t => exact ⟨t, rfl⟩
      have htmem : t ∈ s.pending := pickEarliest_mem ht
      have htle : t.fireAt ≤ tg := pickEarliest_fireAt_le ht _ hmem
      have hstep : execFuel (m + 1) s = execFuel m (dispatch t s) :=
        execFuel_step hec ht m
      have hm1 : loopMeasure (dispatch t s) < m := by
        have := dispatch_measure htmem; omega
      have hr1 : (dispatch t s).running = true := by rw [dispatch_running]; exact hr
      have hc1 : (dispatch t s).clock ≤ tg := by
        rw [dispatch_clock]; omega
      cases he1 : (dispatch t s).exitCode with
      | some c =>
        refine ⟨c, { dispatch t s with running := false, exitCode := none }, ?_, ?_⟩
        · rw [hstep, execFuel_exit he1 (by omega)]
        · exact hc1
      | none =>
        have hne : (⟨tg, q, o, .stop (-1)⟩ : Timer) ≠ t := by
          intro heq
          have hx : (dispatch t s).exitCode = some (-1) := by
            rw [← heq]
            show (appExit (-1) _).exitCode = some (-1)
            exact appExit_exitCode_running (-1) hr
          rw [he1] at hx
          cases hx
        have hmem1 : (⟨tg, q, o, .stop (-1)⟩ : Timer) ∈ (dispatch t s).pending := by
          unfold dispatch
          obtain ⟨ts, hts⟩ := runAction_pending_ext t.action
            { s with clock := max s.clock t.fireAt,
                     pending := removeTimer t s.pending,
                     firedLog := s.firedLog ++ [(t.owner, t.seqNo)] }
          rw [hts]
          exact List.mem_append_left _ (mem_removeTimer_of_ne hmem hne)
        obtain ⟨c, s2, h1, h2⟩ := ih (dispatch t s) hm1 hr1 hmem1 hc1
        exact ⟨c, s2, by rw [hstep, h1], h2⟩

/-- Running the loop never replaces the application instance. -/
theorem execFuel_appId :
    ∀ n : Nat, ∀ s : AppState, (execFuel n s).2.appId = s.appId := by
  intro n
  induction n with
  | zero => intro s; rfl
  | succ m ih =>
    intro s
    rw [execFuel]
    cases hec : s.exitCode with
    | some c => rfl
    | none =>
      cases hp : pickEarliest s.pending with
      | none => rfl
      | some t => rw [ih, dispatch_appId]

/-- Whenever the loop run returns an exit code, the loop is no longer
running in the returned state. -/
theorem execFuel_some_not_running :
    ∀ n : Nat, ∀ s : AppState, ∀ r : Int, (execFuel n s).1 = some r →
      (execFuel n s).2.running = false := by
  intro n
  induction n with
  | zero => intro s r h; simp [execFuel] at h
  | succ m ih =>
    intro s r h
    rw [execFuel] at h ⊢
    cases hec : s.exitCode with
    | some c => rfl
    | none =>
      rw [hec] at h
      cases hp : pickEarliest s.pending with
      | none => rw [hp] at h; simp at h
      | some t =>
        rw [hp] at h
        exact ih _ r h

/-- Assertion failures recorded inside the dispatch are never lost by the
loop: the failure count only grows. -/
theorem execFuel_failures_le :
    ∀ n : Nat, ∀ s : AppState, s.failures ≤ (execFuel n s).2.failures := by
  intro n
  induction n with
  | zero => intro s; exact Nat.le_refl _
  | succ m ih =>
    intro s
    rw [execFuel]
    cases hec : s.exitCode with
    | some c => exact Nat.le_refl _
    | none =>
      cases hp : pickEarliest s.pending with
      | none => exact Nat.le_refl _
      | some t =>
        refine Nat.le_trans ?_ (ih (dispatch t s))
        unfold dispatch
        exact runAction_failures_le t.action
          { s with clock := max s.clock t.fireAt,
                   pending := removeTimer t s.pending,
                   firedLog := s.firedLog ++ [(t.owner, t.seqNo)] }

/-- Generic race between a success callback and a timeout guard: whichever
has the smaller delay fires first and its exit code is returned (on a tie
the success callback wins because it was registered first), and the loop
returns at the winner's fire time. -/
theorem exec_success_vs_guard (s : AppState) (hp : s.pending = []) (ds dg : Nat) :
    (run_success_vs_guard ds dg s).1 = some (if ds ≤ dg then (0 : Int) else -1) ∧
      (run_success_vs_guard ds dg s).2.clock = s.clock + min ds dg := by
  have hb : (singleShot none dg (.stop (-1)) (singleShot none ds (.stop 0) s)).pending
      = [⟨s.clock + ds, s.nextSeq, none, .stop 0⟩,
         ⟨s.clock + dg, s.nextSeq + 1, none, .stop (-1)⟩] := by
    simp [singleShot, hp]
  have hpos : 0 < loopMeasure
      (singleShot none dg (.stop (-1)) (singleShot none ds (.stop 0) s)) := by
    unfold loopMeasure
    rw [hb]
    simp [sumW, Action.size]
  rcases le_or_lt ds dg with hcmp | hcmp
  · rw [if_pos hcmp, Nat.min_eq_left hcmp]
    unfold run_success_vs_guard exec_
    have ht : timerLE ⟨s.clock + ds, s.nextSeq, none, .stop 0⟩
        ⟨s.clock + dg, s.nextSeq + 1, none, .stop (-1)⟩ = true := by
      simp [timerLE]
      omega
    have hpick : pickEarliest
        ({ singleShot none dg (.stop (-1)) (singleShot none ds (.stop 0) s) with
           running := true, exitCode := none } : AppState).pending
        = some ⟨s.clock + ds, s.nextSeq, none, .stop 0⟩ := by
      show pickEarliest
        (singleShot none dg (.stop (-1)) (singleShot none ds (.stop 0) s)).pending = _
      rw [hb]
      simp [pickEarliest, ht]
    have hd : (dispatch ⟨s.clock + ds, s.nextSeq, none, .stop 0⟩
        ({ singleShot none dg (.stop (-1)) (singleShot none ds (.stop 0) s) with
           running := true, exitCode := none } : AppState)).exitCode = some 0 :=
      appExit_exitCode_running 0 rfl
    rw [execFuel_step rfl hpick, execFuel_exit hd hpos]
    refine ⟨rfl, ?_⟩
    show (dispatch ⟨s.clock + ds, s.nextSeq, none, .stop 0⟩ _).clock = s.clock + ds
    rw [dispatch_clock]
    show max s.clock (s.clock + ds) = s.clock + ds
    exact Nat.max_eq_right (Nat.le_add_right _ _)
  · rw [if_neg (Nat.not_le.mpr hcmp), Nat.min_eq_right (Nat.le_of_lt hcmp)]
    unfold run_success_vs_guard exec_
    have ht : timerLE ⟨s.clock + ds, s.nextSeq, none, .stop 0⟩
        ⟨s.clock + dg, s.nextSeq + 1, none, .stop (-1)⟩ = false := by
      simp [timerLE]
      omega
    have hpick : pickEarliest
        ({ singleShot none dg (.stop (-1)) (singleShot none ds (.stop 0) s) with
           running := true, exitCode := none } : AppState).pending
        = some ⟨s.clock + dg, s.nextSeq + 1, none, .stop (-1)⟩ := by
      show pickEarliest
        (singleShot none dg (.stop (-1)) (singleShot none ds (.stop 0) s)).pending = _
      rw [hb]
      simp [pickEarliest, ht]
    have hd : (dispatch ⟨s.clock + dg, s.nextSeq + 1, none, .stop (-1)⟩
        ({ singleShot none dg (.stop (-1)) (singleShot none ds (.stop 0) s) with
           running := true, exitCode := none } : AppState)).exitCode = some (-1) :=
      appExit_exitCode_running (-1) rfl
    rw [execFuel_step rfl hpick, execFuel_exit hd hpos]
    refine ⟨rfl, ?_⟩
    show (dispatch ⟨s.clock + dg, s.nextSeq + 1, none, .stop (-1)⟩ _).clock = s.clock + dg
    rw [dispatch_clock]
    show max s.clock (s.clock + dg) = s.clock + dg
    exact Nat.max_eq_right (Nat.le_add_right _ _)

theorem removeTimer_subset :
    ∀ {l : List Timer} {x t : Timer}, x ∈ removeTimer t l → x ∈ l := by
  intro l
  induction l with
  | nil => intro x t h; simp [removeTimer] at h
  | cons u us ih =>
    intro x t h
    simp only [removeTimer] at h
    by_cases hu : u = t
    · rw [if_pos hu] at h
      exact List.mem_cons_of_mem u h
    · rw [if_neg hu] at h
      rcases List.mem_cons.mp h with h | h
      · rw [h]; exact List.mem_cons_self u us
      · exact List.mem_cons_of_mem u (ih h)

theorem runAction_firedLog (a : Action) :
    ∀ s : AppState, (runAction a s).firedLog = s.firedLog := by
  induction a with
  | stop c => intro s; unfold runAction appExit; split <;> rfl
  | schedule o d a ih => intro s; rfl
  | seq a b iha ihb => intro s; rw [runAction, ihb, iha]
  | record v => intro s; rfl
  | assertTrue b => intro s; simp only [runAction]; split <;> rfl
  | mark => intro s; rfl
  | nop => intro s; rfl

theorem runAction_ownerClean (o : Nat) (a : Action) :
    ∀ s : AppState, a.ownerFree o = true → ownerClean o s →
      ownerClean o (runAction a s) := by
  induction a with
  | stop c =>
    intro s ha hs t ht
    rw [runAction, appExit_pending] at ht
    exact hs t ht
  | schedule q d a ih =>
    intro s ha hs t ht
    simp only [Action.ownerFree, Bool.and_eq_true, bne_iff_ne, ne_eq] at ha
    rcases List.mem_append.mp ht with h | h
    · exact hs t h
    · simp at h
      rw [h]
      exact ⟨ha.1, ha.2⟩
  | seq a b iha ihb =>
    intro s ha hs
    simp only [Action.ownerFree, Bool.and_eq_true] at ha
    exact ihb _ ha.2 (iha _ ha.1 hs)
  | record v => intro s ha hs t ht; exact hs t ht
  | assertTrue b =>
    intro s ha hs t ht
    simp only [runAction] at ht
    split at ht
    · exact hs t ht
    · exact hs t ht
  | mark => intro s ha hs t ht; exact hs t ht
  | nop => intro s ha hs t ht; exact hs t ht

theorem dispatch_ownerClean {o : Nat} {t : Timer} {s : AppState}
    (ht : t ∈ s.pending) (h : ownerClean o s) :
    ownerClean o (dispatch t s) := by
  unfold dispatch
  apply runAction_ownerClean o t.action _ (h t ht).2
  intro u hu
  exact h u (removeTimer_subset hu)

theorem dispatch_firedLog (t : Timer) (s : AppState) :
    (dispatch t s).firedLog = s.firedLog ++ [(t.owner, t.seqNo)] := by
  unfold dispatch
  rw [runAction_firedLog]

/-- While no pending timer is owned by `o` and no pending callback can
schedule one owned by `o`, every timer the loop ever dispatches is not
owned by `o`. -/
theorem execFuel_firedLog_clean (o : Nat) :
    ∀ n : Nat, ∀ s : AppState, ownerClean o s →
      ∀ x ∈ (execFuel n s).2.firedLog, x ∈ s.firedLog ∨ x.1 ≠ some o := by
  intro n
  induction n with
  | zero => intro s hs x hx; exact Or.inl hx
  | succ m ih =>
    intro s hs x hx
    rw [execFuel] at hx
    cases hec : s.exitCode with
    | some c => rw [hec] at hx; exact Or.inl hx
    | none =>
      rw [hec] at hx
      cases hp : pickEarliest s.pending with
      | none => rw [hp] at hx; exact Or.inl hx
      | some t =>
        rw [hp] at hx
        have htmem := pickEarliest_mem hp
        have hclean := dispatch_ownerClean htmem hs
        rcases ih (dispatch t s) hclean x hx with h | h
        · rw [dispatch_firedLog] at h
          rcases List.mem_append.mp h with h | h
          · exact Or.inl h
          · simp at h
            rw [h]
            exact Or.inr (hs t htmem).1
        · exact Or.inr h

/-- C3: with no success path scheduled at all and only the 5000 ms timeout
guard registered before starting the loop, `exec_` returns exit code `-1`
with the virtual clock at 5000 ms. -/
theorem c3_timeout_only_returns_minus_one :
    leaky_test_fail_if_timeout.1 = some (-1) ∧
      leaky_test_fail_if_timeout.2.clock = 5000 := by
  constructor <;> rfl

/-- C1: if the success callback (requesting loop stop with code 0) fires
strictly before the timeout guard, the run returns exit code 0; if the
guard fires strictly first, it returns -1; and in the concrete `test_one`
scenario (delay-0 callback that schedules loop-stop at 3000 ms, guard at
5000 ms) the run returns 0 at 3000 ms. -/
theorem c1_success_before_guard_returns_zero :
    (∀ (s : AppState) (ds dg : Nat), s.pending = [] → ds < dg →
        (run_success_vs_guard ds dg s).1 = some 0) ∧
    (∀ (s : AppState) (ds dg : Nat), s.pending = [] → dg < ds →
        (run_success_vs_guard ds dg s).1 = some (-1)) ∧
    (leaky_test_one (instance_or_create none)).1 = some 0 ∧
    (leaky_test_one (instance_or_create none)).2.clock = 3000 := by
  refine ⟨?_, ?_, by decide, by decide⟩
  · intro s ds dg hp h
    have hx := (exec_success_vs_guard s hp ds dg).1
    rw [if_pos (Nat.le_of_lt h)] at hx
    exact hx
  · intro s ds dg hp h
    have hx := (exec_success_vs_guard s hp ds dg).1
    rw [if_neg (Nat.not_le.mpr h)] at hx
    exact hx

theorem c1_witness :
    (run_success_vs_guard 0 5000 app0).1 = some 0 ∧
      (run_success_vs_guard 5000 100 app0).1 = some (-1) :=
  ⟨c1_success_before_guard_returns_zero.1 app0 0 5000 rfl (by decide),
   c1_success_before_guard_returns_zero.2.1 app0 5000 100 rfl (by decide)⟩

/-- C2: once a timeout guard (`exit(-1)` at absolute time `tg`, at or after
the current clock) is pending, the loop-driving call `exec_` always
terminates with some exit code, no later than the guard's fire time — it
never blocks the test process indefinitely. -/
theorem c2_timeout_guard_bounds_run (s : AppState) (tg q : Nat) (o : Option Nat)
    (hmem : (⟨tg, q, o, .stop (-1)⟩ : Timer) ∈ s.pending)
    (hclock : s.clock ≤ tg) :
    ∃ c s2, exec_ s = (some c, s2) ∧ s2.clock ≤ tg := by
  unfold exec_
  exact execFuel_guard_terminates tg q o (loopMeasure s + 1)
    { s with running := true, exitCode := none }
    (Nat.lt_succ_self _) rfl hmem hclock

theorem c2_witness :
    ∃ c s2, exec_ (leaky_fail_if_timeout app0) = (some c, s2) ∧ s2.clock ≤ 5000 :=
  c2_timeout_guard_bounds_run (leaky_fail_if_timeout app0) 5000 0 none
    (by decide) (by decide)

set_option maxRecDepth 100000 in
/-- C4: for the worker that emits exactly 20 results, when the loop runs to
completion (the worker finishes at 2000 ms, before the 3000 ms guard), the
subscribed handler observes exactly 20 result notifications and the loop
exits with code 0 — in the guarded (`better`) variant and in the unguarded
(`good`) variant alike. -/
theorem c4_worker_twenty_results :
    (test_controller_and_worker_better app0).1 = some 0 ∧
      (test_controller_and_worker_better app0).2.observed.length = 20 ∧
      test_controller_and_worker_good.1 = some 0 ∧
      test_controller_and_worker_good.2.observed.length = 20 := by
  refine ⟨?_, ?_, ?_, ?_⟩ <;> decide

/-- C5 counterexample: in the leaky harness the timeout guard is not
cancelled when the success callback stops the loop first.  `test_one`
returns 0 but leaves its 5000 ms guard (registration 1) pending; during
`test_two`'s loop run that stale guard fires — `(none, 1)` is dispatched —
and makes the second run return -1 instead of 0.  This falsifies "the
guard does not later fire or affect any loop run". -/
theorem c5_leaky_guard_fires_in_later_run :
    leaky_suite_first.1 = some 0 ∧
      leaky_suite_first.2.pending = [⟨5000, 1, none, .stop (-1)⟩] ∧
      leaky_suite_second.1 = some (-1) ∧
      (none, 1) ∈ leaky_suite_second.2.firedLog ∧
      (none, 1) ∉ leaky_suite_first.2.firedLog := by
  refine ⟨rfl, rfl, rfl, by decide, by decide⟩

/-- C5 (amended): each test installs exactly one timeout guard; in the
less-leaky harness the guard is parented to the per-test owner, so after
the success callback stops the loop first and `release_qt_resources` runs,
the guard is destroyed and never fires in any later loop run — the second
test still returns 0 and no first-test timer is dispatched during it. -/
theorem c5_one_guard_confined_in_less_leaky :
    less_leaky_suite_first.1 = some 0 ∧
      less_leaky_suite_first.2.pending.countP
        (fun t => t.action == Action.stop (-1)) = 1 ∧
      less_leaky_after_cleanup.pending = [] ∧
      less_leaky_suite_second.1 = some 0 ∧
      (less_leaky_suite_second.2.firedLog.drop
          less_leaky_suite_first.2.firedLog.length).all
        (fun x => x.1 != some 1) = true := by
  refine ⟨rfl, by decide, rfl, rfl, by decide⟩

/-- C6: after `release_qt_resources` destroys the per-test owner `o` (and
with it every timer parented to `o`), provided the surviving callbacks
never parent a timer to `o` (each test parents only to its own owner), no
timer owned by `o` remains pending and no timer owned by `o` is ever
dispatched in any subsequent loop run. -/
theorem c6_release_confines_owner (o : Nat) (s : AppState)
    (hact : ∀ t ∈ s.pending, t.action.ownerFree o = true) :
    (∀ t ∈ (release_qt_resources o s).pending, t.owner ≠ some o) ∧
      ∀ x ∈ (exec_ (release_qt_resources o s)).2.firedLog,
        x ∈ s.firedLog ∨ x.1 ≠ some o := by
  have hclean : ownerClean o (release_qt_resources o s) := by
    intro t ht
    unfold release_qt_resources at ht
    simp only [List.mem_filter, decide_eq_true_eq] at ht
    exact ⟨ht.2, hact t ht.1⟩
  refine ⟨fun t ht => (hclean t ht).1, ?_⟩
  intro x hx
  unfold exec_ at hx
  exact execFuel_firedLog_clean o (loopMeasure (release_qt_resources o s) + 1)
    { release_qt_resources o s with running := true, exitCode := none }
    hclean x hx

theorem c6_witness :
    (∀ t ∈ (release_qt_resources 1 less_leaky_suite_first.2).pending,
        t.owner ≠ some 1) ∧
      ∀ x ∈ (exec_ (release_qt_resources 1 less_leaky_suite_first.2)).2.firedLog,
        x ∈ less_leaky_suite_first.2.firedLog ∨ x.1 ≠ some 1 :=
  c6_release_confines_owner 1 less_leaky_suite_first.2 (by decide)

/-- C7: an assertion failure raised inside a deferred callback during the
loop's dispatch is surfaced at the boundary of the run — the failure count
reported by the loop never decreases, and in the concrete scenario with a
failing assertion inside the delay-0 callback the run returns with exactly
one failure recorded rather than silently swallowing it. -/
theorem c7_assert_failures_surfaced :
    (∀ (n : Nat) (s : AppState), s.failures ≤ (execFuel n s).2.failures) ∧
      failing_assert_run.1 = some 0 ∧
      failing_assert_run.2.failures = 1 :=
  ⟨fun n s => execFuel_failures_le n s, by decide, by decide⟩

theorem c7_witness :
    app0.failures ≤ (execFuel 5 app0).2.failures :=
  c7_assert_failures_surfaced.1 5 app0

/-- C8: the application/event loop is a lazily created, process-wide
singleton: `instance_or_create` returns the existing instance unchanged
whenever one exists, creates the fresh instance only when none exists, and
running the loop never tears down or replaces the instance (its identity
is preserved across every `exec_`). -/
theorem c8_singleton_lifecycle :
    (∀ a : AppState, instance_or_create (some a) = a) ∧
      instance_or_create none = app0 ∧
      ∀ s : AppState, (exec_ s).2.appId = s.appId := by
  refine ⟨fun a => rfl, rfl, fun s => ?_⟩
  unfold exec_
  exact execFuel_appId _ _

theorem c8_witness :
    instance_or_create (some app0) = app0 ∧
      (exec_ app0).2.appId = app0.appId :=
  ⟨c8_singleton_lifecycle.1 app0, c8_singleton_lifecycle.2.2 app0⟩

/-- C9: `stop` (`QCoreApplication.exit`) is idempotent after termination:
once a loop run has returned some exit code, the loop is no longer running
and a further `exit` call leaves the state completely unchanged — the
already-reported exit code stands and nothing further is reported. -/
theorem c9_stop_idempotent_after_stop (s : AppState) (r c : Int)
    (h : (exec_ s).1 = some r) :
    appExit c (exec_ s).2 = (exec_ s).2 := by
  have hrun : (exec_ s).2.running = false := by
    unfold exec_ at h ⊢
    exact execFuel_some_not_running _ _ r h
  unfold appExit
  simp [hrun]

theorem c9_witness :
    appExit 7 (exec_ (leaky_fail_if_timeout app0)).2 =
      (exec_ (leaky_fail_if_timeout app0)).2 :=
  c9_stop_idempotent_after_stop (leaky_fail_if_timeout app0) (-1) 7 (by decide)

set_option maxRecDepth 100000 in
/-- C10: because `startWorkers` is wired to `Worker.start` through a queued
connection, `Controller.start()` never starts the worker synchronously:
posting the start event leaves `isRunning()` untouched, in the `bad` test
(no loop ever runs) the worker is still not running right after `start()`,
and the worker does run once an event loop dispatches the queued
notification. -/
theorem c10_queued_start_not_synchronous :
    (∀ (s : AppState) (a : Action),
        (controller_start a s).workerStarted = s.workerStarted) ∧
      test_controller_and_worker_bad.workerStarted = false ∧
      test_controller_and_worker_good.2.workerStarted = true := by
  refine ⟨fun s a => rfl, rfl, ?_⟩
  decide

theorem c10_witness :
    (controller_start Action.nop app0).workerStarted = app0.workerStarted :=
  c10_queued_start_not_synchronous.1 app0 Action.nop

end Qt2Test
